import Mathlib

/-!
Verification development for the radiant floor-heating routing core of
`archipack_floor_heating.py`: the 2-D segment algebra (`Seg`), the oriented
frame (`Turtle`), the spatial index contract (`Tree`, modelled from the spec
because `Qtree`/`Envelope` live in an external module), and the `PathFinder`
state machine (`forward`, `backward`, `next`), embedded over exact rationals
(the idealisation of the source's float arithmetic).
-/

set_option autoImplicit false
set_option maxRecDepth 100000

namespace FH
/-- Planar vector (the source's `mathutils.Vector` with an always-zero third
coordinate), over exact rationals. -/
@[ext] structure V2 where
  x : ℚ
  y : ℚ
deriving DecidableEq, Repr

instance : Add V2 := ⟨fun a b => ⟨a.x + b.x, a.y + b.y⟩⟩
instance : Sub V2 := ⟨fun a b => ⟨a.x - b.x, a.y - b.y⟩⟩
instance : Neg V2 := ⟨fun a => ⟨-a.x, -a.y⟩⟩
instance : SMul ℚ V2 := ⟨fun c a => ⟨c * a.x, c * a.y⟩⟩
instance : Zero V2 := ⟨⟨0, 0⟩⟩

/-- Dot product of the 2-D parts (the source's `Vector.__mul__` on
vectors with zero third coordinate). -/
def dot (a b : V2) : ℚ := a.x * b.x + a.y * b.y

/-- The z-component of the 3-D cross product of two in-plane vectors: the
determinant the source obtains as `self.v * Vector((other.v.y, -other.v.x, 0))`. -/
def cross2 (a b : V2) : ℚ := a.x * b.y - a.y * b.x

/-- Squared euclidean length (`v.length ** 2`, computed exactly). -/
def normSq (a : V2) : ℚ := a.x * a.x + a.y * a.y

/-- Downward scan for the integer square root of `n`: largest `k < m` with
`k * k ≤ n` (0 when none).  Structural recursion, so the kernel can
evaluate it (the library `Nat.sqrt` is well-founded and cannot be used in
`decide`-checked witnesses). -/
def isqrtGo (n : ℕ) : ℕ → ℕ
  | 0 => 0
  | k + 1 => if k * k ≤ n then k else isqrtGo n k

/-- Integer square root: the largest `k ≤ n` with `k * k ≤ n`. -/
def isqrt (n : ℕ) : ℕ := isqrtGo n (n + 1)

/-- Exact rational square root: exact on squares of rationals (every length
taken in the concrete runs below is of that form); this stands in for the
source's float `sqrt`. -/
def ratSqrt (q : ℚ) : ℚ := (isqrt q.num.toNat : ℚ) / (isqrt q.den : ℚ)

/-- The source's `v.length` (exact whenever the squared length is a square
of a rational). -/
def ratLen (v : V2) : ℚ := ratSqrt (normSq v)

/-- Parametric segment: origin `p`, direction `v` (endpoint `p + v`), and the
insertion index assigned by `PathFinder.insert` (`-1` until assigned).  The
source also stores the axis-aligned envelope, kept equal to the box of
`p, p + v` by `update_envelope` at every mutation; here the envelope is
computed from `p, v` on demand, which preserves that invariant by
construction. -/
structure Seg where
  p : V2
  v : V2
  idx : ℤ
deriving DecidableEq, Repr

def mkSeg (p v : V2) : Seg := ⟨p, v, -1⟩

/-- `Seg.t`: the parameter on this segment of the intersection with the line
of `other` (0 when parallel). -/
def Seg.t (s other : Seg) : ℚ :=
  let c : V2 := ⟨other.v.y, -other.v.x⟩
  let d := dot s.v c
  if d = 0 then 0
  else dot c (other.p - s.p) / d

/-- `Seg.intersect_ext`: solve `s.p + u*s.v = other.p + v*other.v`.  Returns
`(hit, point, u, v)`; `hit = false` exactly when the determinant is zero. -/
def Seg.intersect_ext (s other : Seg) : Bool × V2 × ℚ × ℚ :=
  let c : V2 := ⟨other.v.y, -other.v.x⟩
  let d := dot s.v c
  if d = 0 then (false, s.p, 0, 0)
  else
    let dp := other.p - s.p
    let c2 : V2 := ⟨s.v.y, -s.v.x⟩
    let u := dot c dp / d
    let w := dot c2 dp / d
    (true, s.p + u • s.v, u, w)

/-- `Seg.point_on_seg`: projection parameter of `pt` on the line of `s`.
The source divides the dot product by `length ** 2` and guards on
`length == 0`; over exact arithmetic both equal the squared-norm forms. -/
def Seg.point_on_seg (s : Seg) (pt : V2) : ℚ :=
  if normSq s.v = 0 then 0
  else dot s.v (pt - s.p) / normSq s.v

/-- `Seg.farest_point`: of `other`'s two endpoints, the one projecting to the
larger parameter on `s` (with that parameter). -/
def Seg.farest_point (s other : Seg) : ℚ × V2 :=
  let p0 := other.p
  let p1 := other.p + other.v
  let t0 := s.point_on_seg p0
  let t1 := s.point_on_seg p1
  if t1 > t0 then (t1, p1) else (t0, p0)

/-- `Seg.nearest_point`: of `other`'s two endpoints, the one projecting to the
smaller parameter on `s` (with that parameter). -/
def Seg.nearest_point (s other : Seg) : ℚ × V2 :=
  let p0 := other.p
  let p1 := other.p + other.v
  let t0 := s.point_on_seg p0
  let t1 := s.point_on_seg p1
  if t1 < t0 then (t1, p1) else (t0, p0)

/-- `Seg.distance_pt`: signed perpendicular distance from `pt` to the line of
`s` (cross product over the length) and the projection parameter. -/
def Seg.distance_pt (s : Seg) (pt : V2) : ℚ × ℚ :=
  let dp := pt - s.p
  let dl := ratLen s.v
  if dl = 0 then (0, 0)
  else ((s.v.x * dp.y - s.v.y * dp.x) / dl, dot s.v dp / (dl * dl))

/-- `Seg.minimal_dist`: the smaller of the two `distance_pt` values at
`other`'s endpoints. -/
def Seg.minimal_dist (s other : Seg) : ℚ :=
  let d0 := (s.distance_pt other.p).1
  let d1 := (s.distance_pt (other.p + other.v)).1
  if d1 < d0 then d1 else d0

/-- The spec's wording for `min_distance`: the (unsigned) perpendicular
distance from the infinite line of `s` to a point. -/
def linePerpDist (s : Seg) (pt : V2) : ℚ := |cross2 s.v (pt - s.p)| / ratLen s.v

/-- The spec's `signed_distance`: perpendicular signed distance from a point
to the infinite line of `s` (sign via the 2-D cross product). -/
def lineSignedDist (s : Seg) (pt : V2) : ℚ := cross2 s.v (pt - s.p) / ratLen s.v

/-- Modelled from the spec: the axis-aligned bounding rectangle (`Envelope` of
the external `archipack_polylines` module, absent from the sources): point and
rectangle containment, expansion and intersection tests. -/
structure Env where
  x0 : ℚ
  x1 : ℚ
  y0 : ℚ
  y1 : ℚ
deriving DecidableEq, Repr

/-- Envelope of a segment: the box of its two endpoints. -/
def segEnv (s : Seg) : Env :=
  ⟨min s.p.x (s.p.x + s.v.x), max s.p.x (s.p.x + s.v.x),
   min s.p.y (s.p.y + s.v.y), max s.p.y (s.p.y + s.v.y)⟩

/-- Envelope of a point (the source's `SeekPoint`). -/
def ptEnv (p : V2) : Env := ⟨p.x, p.x, p.y, p.y⟩

/-- Expand an envelope by a tolerance on every side. -/
def envExpand (e : Env) (tol : ℚ) : Env := ⟨e.x0 - tol, e.x1 + tol, e.y0 - tol, e.y1 + tol⟩

/-- Closed-overlap test of two envelopes. -/
def envIntersects (a b : Env) : Bool :=
  decide (a.x0 ≤ b.x1 ∧ b.x0 ≤ a.x1 ∧ a.y0 ≤ b.y1 ∧ b.y0 ≤ a.y1)

/-- Modelled from the spec: the spatial index (the external `Qtree`).  An
ordered, append-only collection of segments; `width`/`height` describe the
indexed region (used for the iteration cap).  The query contract is the
spec's: return every index whose stored envelope meets the query envelope
expanded by the tolerance (candidate order is the insertion order). -/
structure Tree where
  geoms : List Seg
  width : ℚ
  height : ℚ
deriving DecidableEq, Repr

def Tree.ngeoms (t : Tree) : ℕ := t.geoms.length

def segDefault : Seg := mkSeg ⟨0, 0⟩ ⟨0, 0⟩

/-- Lookup of a stored segment by a (valid, non-negative) candidate index. -/
def treeGet (t : Tree) (i : ℕ) : Seg := t.geoms.getD i segDefault

/-- Modelled from the spec: `Qtree.intersects_ext` — all candidate indices
whose envelope meets the query envelope expanded by `tol`. -/
def Tree.intersects_ext (t : Tree) (e : Env) (tol : ℚ) : List ℕ :=
  (List.range t.ngeoms).filter fun i => envIntersects (envExpand e tol) (segEnv (treeGet t i))

/-- Python list indexing: non-negative indices from the front, negative
indices from the back, out-of-range raises (modelled as `none`). -/
def pyget (l : List Seg) (i : ℤ) : Option Seg :=
  if 0 ≤ i then l.get? i.toNat
  else if 0 ≤ (l.length : ℤ) + i then l.get? ((l.length : ℤ) + i).toNat
  else none

/-- Python list indexing for the coordinate list (`coords[-1]`). -/
def lastCoord (l : List V2) : Option V2 := l.getLast?

/-- mathutils `normalized()`: `v` scaled to unit length, with the zero vector
mapped to itself.  Exact whenever `v` has a rational length, which holds at
every evaluation in the concrete runs below. -/
def normalized (v : V2) : V2 :=
  let l := ratLen v
  if l = 0 then ⟨0, 0⟩ else (1 / l) • v

/-- The `Turtle`: a position, the front vector and the handedness flag.  The
source stores six derived probe segments sharing the position vector and
refreshes them after every mutation; they are recovered here as functions of
the state, which realises the same invariant. -/
structure Turtle where
  p : V2
  v : V2
  cw : Bool
deriving DecidableEq, Repr

/-- `self.up`: `1` for clockwise, `-1` for counter-clockwise. -/
def Turtle.up (t : Turtle) : ℚ := if t.cw then 1 else -1

/-- Cross product of an in-plane vector with the turtle `zAxis = (0,0,up)`:
the side vector from which `left`/`right` probes are built. -/
def sideVec (up : ℚ) (v : V2) : V2 := ⟨v.y * up, -(v.x * up)⟩

def Turtle.front (t : Turtle) : Seg := mkSeg t.p t.v

def Turtle.front2 (t : Turtle) : Seg := mkSeg t.p ((2 : ℚ) • t.v)

def Turtle.front3 (t : Turtle) : Seg := mkSeg t.p ((3 : ℚ) • t.v)

def Turtle.left (t : Turtle) : Seg := mkSeg t.p (-(sideVec t.up t.v))

def Turtle.left2 (t : Turtle) : Seg := mkSeg t.p ((2 : ℚ) • -(sideVec t.up t.v))

def Turtle.right (t : Turtle) : Seg := mkSeg t.p (sideVec t.up t.v)

/-- `Turtle.rotate`: set the absolute forward direction. -/
def Turtle.rotate (t : Turtle) (v : V2) : Turtle := ⟨t.p, v, t.cw⟩

/-- `Turtle.move`: translate the position. -/
def Turtle.move (t : Turtle) (dv : V2) : Turtle := ⟨t.p + dv, t.v, t.cw⟩

def Turtle.turn_right (t : Turtle) : Turtle := t.rotate t.right.v

def Turtle.turn_left (t : Turtle) : Turtle := t.rotate t.left.v

/-- `Turtle.relocate`: jump to a position and direction. -/
def Turtle.relocate (t : Turtle) (p v : V2) : Turtle := ⟨p, v, t.cw⟩

/-- The `PathFinder` state: the spatial index (mutated by inserts), the
spacing, the boundary-segment count `nB` (`n_boundarys`), the wall segment
currently followed (`last`), the turtle, the output polyline, the `run`
flag, the backward permission, the direction flag and the iteration
counter/cap.  The source's `self.pt/self.seg/self.left/self.right` are
scratch values re-initialised before every read and appear here as locals. -/
structure PF where
  tree : Tree
  spacing : ℚ
  nB : ℕ
  last : ℤ
  turtle : Turtle
  coords : List V2
  run : Bool
  allow_backward : Bool
  is_forward : Bool
  iter : ℕ
  max_iter : ℚ
deriving DecidableEq, Repr

/-- `PathFinder.__init__`.  The only fallible step is the Python float
division `(tree.width * tree.height) / spacing ** 2`, which raises
`ZeroDivisionError` when `spacing == 0`; the raise is modelled as `none`.
No other validation of the configuration is performed. -/
def mkPathFinder (tree : Tree) (spacing : ℚ) (allow_backward cw : Bool) : Option PF :=
  if spacing = 0 then none
  else some
    { tree := tree
      spacing := spacing
      nB := tree.ngeoms
      last := -1
      turtle := ⟨⟨0, 0⟩, spacing • (⟨1, 0⟩ : V2), cw⟩
      coords := []
      run := true
      allow_backward := allow_backward
      is_forward := true
      iter := 0
      max_iter := tree.width * tree.height / spacing ^ 2 }

/-- `PathFinder.start`: relocate the turtle and emit the first point. -/
def pfStart (pf : PF) (p v : V2) : PF :=
  { pf with turtle := pf.turtle.relocate p v, coords := pf.coords ++ [p] }

/-- `PathFinder.insert`: append a path segment under the next index
(`tree.ngeoms`), record that index on the segment, and return it. -/
def PFinsert (pf : PF) (p0 p1 : V2) : PF × ℤ :=
  let idx : ℤ := (pf.tree.ngeoms : ℤ)
  let seg : Seg := ⟨p0, p1 - p0, idx⟩
  ({ pf with tree := { pf.tree with geoms := pf.tree.geoms ++ [seg] } }, idx)

/-- `PathFinder.intersect`: query the index with the probe's envelope
expanded by `0.005 * spacing`, skip the most recently inserted segment
(`ngeoms - 1`), and keep the nearest exact hit with
`1.0001 >= u > 0` and `1.0001 >= v >= -0.0001`. -/
def PFintersect (tree : Tree) (spacing : ℚ) (s : Seg) : Bool × ℚ × ℤ :=
  let found := tree.intersects_ext (segEnv s) ((5 / 1000) * spacing)
  let skip : ℤ := (tree.ngeoms : ℤ) - 1
  found.foldl
    (fun (acc : Bool × ℚ × ℤ) (i : ℕ) =>
      if (i : ℤ) ≠ skip then
        let r := s.intersect_ext (treeGet tree i)
        if r.1 = true ∧ (10001 / 10000 : ℚ) ≥ r.2.2.1 ∧ r.2.2.1 > 0 ∧
            (10001 / 10000 : ℚ) ≥ r.2.2.2 ∧ r.2.2.2 ≥ -(1 / 10000) then
          if r.2.2.1 < acc.2.1 then (true, r.2.2.1, (i : ℤ))
          else (true, acc.2.1, acc.2.2)
        else acc
      else acc)
    (false, 10 ^ 32, -1)

/-- `PathFinder.normal`: the spacing-sized normal of `seg` oriented with the
turtle front, together with the squared length of `normalized-normal + front
direction` (the source compares the unsquared lengths against `1` and against
each other; both are non-negative, so the squared comparisons coincide). -/
def PFnormal (spacing : ℚ) (turtle : Turtle) (seg : Seg) : V2 × ℚ :=
  let n0 := sideVec turtle.up (normalized seg.v)
  let vh := normalized turtle.v
  let d0 := normSq (n0 + vh)
  if d0 < 1 then (spacing • -n0, normSq (-n0 + vh))
  else (spacing • n0, d0)

/-- Squared form of the source's `0.0001` endpoint tolerance. -/
def epsSq : ℚ := (1 / 10000) ^ 2

/-- `PathFinder.seg_at_pos`: does `seg` start or end at `p` (within the
`0.0001` tolerance; compared on squared lengths)? -/
def seg_at_pos (seg : Seg) (p : V2) : Bool :=
  decide (normSq (seg.p - p) < epsSq ∨ normSq (seg.p - p + seg.v) < epsSq)

/-- `PathFinder.obstacle_seg`: among the segments found at `p`, the one whose
oriented normal best matches the turtle front (largest `d`); returns `-1`
and the turtle front vector when none qualifies. -/
def obstacle_seg (tree : Tree) (spacing : ℚ) (turtle : Turtle) (p : V2) : ℤ × V2 :=
  let found := tree.intersects_ext (ptEnv p) (1 / 1000)
  let r := found.foldl
    (fun (acc : ℤ × V2 × ℚ) (i : ℕ) =>
      let seg := treeGet tree i
      if seg_at_pos seg p then
        let nd := PFnormal spacing turtle seg
        if nd.2 > acc.2.2 then ((i : ℤ), nd.1, nd.2) else acc
      else acc)
    (-1, turtle.v, -1)
  (r.1, r.2.1)

/-- `PathFinder.wall_seg`: the first segment at `p` other than `last`
(`-1` when none). -/
def wall_seg (tree : Tree) (lastIdx : ℤ) (p : V2) : ℤ :=
  let found := tree.intersects_ext (ptEnv p) (1 / 1000)
  match found.find? (fun (i : ℕ) => decide ((i : ℤ) ≠ lastIdx) && seg_at_pos (treeGet tree i) p) with
  | some i => (i : ℤ)
  | none => -1

/-- `PathFinder.obstacle`: intersect the caller-prepared left probe; on a hit,
find the segment with the largest normal at the front-nearest endpoint of the
hit segment, offset that point inward by half a spacing-normal (boundary) or a
full one (pipe), and return the advance parameter of the turtle front against
the line through that point along the obstacle's direction.  Python's
negative-index list accesses are the fallible part. -/
def PFobstacle (pf : PF) (lseg : Seg) : Option (Bool × ℚ × V2 × ℤ) :=
  let r := PFintersect pf.tree pf.spacing lseg
  if r.1 then
    match pyget pf.tree.geoms r.2.2 with
    | none => none
    | some _seg =>
      let np := pf.turtle.front.nearest_point _seg
      let onb := obstacle_seg pf.tree pf.spacing pf.turtle np.2
      match pyget pf.tree.geoms onb.1 with
      | none => none
      | some nseg =>
        let p2 := if onb.1 < (pf.nB : ℤ) then np.2 - ((1 : ℚ) / 2) • onb.2 else np.2 - onb.2
        some (true, pf.turtle.front.t (mkSeg p2 nseg.v), onb.2, r.2.2)
  else some (false, 0, pf.turtle.v, -1)

/-- Turn direction resolved by a forward or backward step. -/
inductive Dir
  | LEFT
  | RIGHT
deriving DecidableEq, Repr

/-- The clearance rule of the forward step (source lines 648-651): the probe
line runs parallel to the constraining segment through its origin offset by
`side * 0.5 * n` when the segment is an original boundary/obstacle edge
(`next < n_boundarys`) and by `side * n` when it is an already drawn path
segment; `n` is the spacing-sized normal. -/
def fwdWallProbe (nB nxt : ℤ) (seg : Seg) (side : ℚ) (n : V2) : Seg :=
  if nxt < nB then mkSeg (seg.p + (side * (1 / 2)) • n) seg.v
  else mkSeg (seg.p + side • n) seg.v

/-- The clearance rule of the backward step (source lines 885-888): as in the
forward step but with quarter/half spacing offsets. -/
def bwdWallProbe (nB nxt : ℤ) (seg : Seg) (side : ℚ) (n : V2) : Seg :=
  if nxt < nB then mkSeg (seg.p + (side * (1 / 4)) • n) seg.v
  else mkSeg (seg.p + (side * (1 / 2)) • n) seg.v

/-- The local variables of one forward step that flow from the base
resolution (source lines 611-658) through the escalating obstacle checks
into the final move. -/
structure FwdCtx where
  v : V2
  seg : Seg
  nxt : ℤ
  dir : Dir
  side : ℚ
  n : V2
  t : ℚ
  p0 : V2
  p : V2
  hit : Bool
deriving DecidableEq, Repr

/-- Source lines 613-616: when no wall is being followed yet, probe to the
right and follow whatever is hit (also recording `-1` on a miss). -/
def followWall (pf : PF) : PF :=
  if pf.last < 0 then { pf with last := (PFintersect pf.tree pf.spacing pf.turtle.right).2.2 }
  else pf

/-- Source lines 611-658: project the turtle front on the followed wall, find
the constraining segment at the far point, classify the turn side, offset the
probe line by the clearance rule and compute the tentative advance parameter
`t`.  Returns `none` on a Python index error, `some none` for the `t == 0`
early `return False`, and the context otherwise. -/
def fwdResolve (pf : PF) : Option (Option FwdCtx) :=
  let v := pf.turtle.v
  match pyget pf.tree.geoms pf.last with
  | none => none
  | some wseg =>
    let fp := pf.turtle.front.farest_point wseg
    let p0 := fp.2
    let nxt := wall_seg pf.tree pf.last p0
    match pyget pf.tree.geoms nxt with
    | none => none
    | some seg =>
      let sseg := mkSeg p0 v
      let p1 := if normSq (p0 - seg.p) < epsSq then seg.p + seg.v else seg.p
      let d := (sseg.distance_pt p1).1
      let ds : Dir × ℚ := if d * pf.turtle.up > 0 then (Dir.LEFT, -1) else (Dir.RIGHT, 1)
      let n := (PFnormal pf.spacing pf.turtle seg).1
      let probe := fwdWallProbe (pf.nB : ℤ) nxt seg ds.2 n
      let t := pf.turtle.front.t probe
      if t = 0 then some none
      else some (some ⟨v, seg, nxt, ds.1, ds.2, n, t, p0, probe.p, false⟩)

/-- Source lines 666-686: lateral probe one spacing to the left for an
obstacle touching the boundary; on a closer boundary hit, turn left there. -/
def checkA (pf : PF) (c : FwdCtx) : Option FwdCtx :=
  if c.hit = false then
    let p1 := pf.turtle.p + pf.turtle.left.v
    let sseg := mkSeg (c.p + (c.side * (1 / 2)) • c.n) c.seg.v
    let tm0 := (mkSeg p1 c.v).t sseg
    let tmax := if tm0 < 0 then 1 - tm0 else tm0
    let lseg := mkSeg p1 (tmax • c.v)
    match PFobstacle pf lseg with
    | none => none
    | some r =>
      if r.1 = true ∧ r.2.2.2 < (pf.nB : ℤ) ∧ r.2.1 < c.t then
        some { c with dir := Dir.LEFT, t := r.2.1, n := r.2.2.1, nxt := r.2.2.2, hit := true }
      else some c
  else some c

/-- Source lines 689-707: lateral probe 1.5 spacings to the left for an
already laid pipe; on a closer path-segment hit, turn left there. -/
def checkB (pf : PF) (c : FwdCtx) : Option FwdCtx :=
  if c.hit = false then
    let p1 := pf.turtle.p + ((3 : ℚ) / 2) • pf.turtle.left.v
    let sseg := mkSeg (c.p + (c.side * (3 / 2)) • c.n) c.seg.v
    let tm0 := (mkSeg p1 c.v).t sseg
    let tmax := if tm0 < 0 then 1 - tm0 else tm0
    let lseg := mkSeg p1 (tmax • c.v)
    match PFobstacle pf lseg with
    | none => none
    | some r =>
      if r.1 = true ∧ (pf.nB : ℤ) ≤ r.2.2.2 ∧ r.2.1 < c.t then
        some { c with dir := Dir.LEFT, t := r.2.1, n := r.2.2.1, nxt := r.2.2.2, hit := true }
      else some c
  else some c

/-- Source lines 709-712: reposition the scratch point from the far wall
point by the clearance rule (overwritten before any later read, kept for
fidelity). -/
def pReassign (c : FwdCtx) (nB : ℕ) : FwdCtx :=
  if c.nxt < (nB : ℤ) then { c with p := c.p0 - ((1 : ℚ) / 2) • c.n }
  else { c with p := c.p0 - c.n }

/-- Source lines 719-741: probe the front extended to `t + 2.5` spacings; on
a hit, re-aim at the hit segment (recomputing the normal and flipping the
side when it differs from the constraining one), offset by the clearance
rule and turn left there. -/
def checkC (pf : PF) (c : FwdCtx) : FwdCtx :=
  if c.hit = false then
    let probe := mkSeg pf.turtle.p ((c.t + 5 / 2) • c.v)
    let r := PFintersect pf.tree pf.spacing probe
    if r.1 then
      let idx := r.2.2
      let sn : Seg × V2 × ℚ :=
        if idx ≠ c.nxt then
          let seg2 := if 0 ≤ idx then treeGet pf.tree idx.toNat else segDefault
          (seg2, (PFnormal pf.spacing pf.turtle seg2).1, -1)
        else (c.seg, c.n, c.side)
      let p2 := if idx < (pf.nB : ℤ) then sn.1.p + (sn.2.2 * (1 / 2)) • sn.2.1
        else sn.1.p + sn.2.2 • sn.2.1
      let t2 := pf.turtle.front.t (mkSeg p2 sn.1.v)
      { c with nxt := idx, seg := sn.1, n := sn.2.1, side := sn.2.2, p := p2,
               dir := Dir.LEFT, t := t2, hit := true }
    else c
  else c

/-- Source lines 762-787: when still turning right, probe two spacings ahead
along the right offset line for a boundary obstacle; if one sits closer than
1.5 spacings to the constraining segment, turn left at it instead. -/
def checkD1 (pf : PF) (c : FwdCtx) : Option FwdCtx :=
  if c.hit = false ∧ c.dir = Dir.RIGHT then
    let sseg := mkSeg (c.seg.p + ((1 : ℚ) / 2) • c.n) c.seg.v
    let right0 := mkSeg (pf.turtle.p + ((1 : ℚ) / 2) • pf.turtle.right.v) c.v
    let t0 := right0.t sseg
    let right1 := mkSeg (right0.p + t0 • c.v) ((2 : ℚ) • c.v)
    let r := PFintersect pf.tree pf.spacing right1
    if r.1 = true ∧ r.2.2 < (pf.nB : ℤ) then
      let np := pf.turtle.front.nearest_point (if 0 ≤ r.2.2 then treeGet pf.tree r.2.2.toNat else segDefault)
      let ob := obstacle_seg pf.tree pf.spacing pf.turtle np.2
      match pyget pf.tree.geoms ob.1 with
      | none => none
      | some seg2 =>
        let dmin := seg2.minimal_dist c.seg
        if dmin < (3 / 2) * pf.spacing then
          let p2 := seg2.p - ((1 : ℚ) / 2) • ob.2
          let t2 := pf.turtle.front.t (mkSeg p2 seg2.v)
          some { c with dir := Dir.LEFT, seg := seg2, nxt := ob.1, n := ob.2, t := t2, hit := true }
        else some c
    else some c
  else some c

/-- Source lines 789-811: the same right-side check against already laid
pipes, with a one-spacing offset line and a two-spacing clearance bound. -/
def checkD2 (pf : PF) (c : FwdCtx) : Option FwdCtx :=
  if c.hit = false ∧ c.dir = Dir.RIGHT then
    let sseg := mkSeg (c.seg.p + ((1 : ℚ) / 2) • c.n) c.seg.v
    let right0 := mkSeg (pf.turtle.p + pf.turtle.right.v) c.v
    let t0 := right0.t sseg
    let right1 := mkSeg (right0.p + t0 • c.v) ((2 : ℚ) • c.v)
    let r := PFintersect pf.tree pf.spacing right1
    if r.1 = true ∧ (pf.nB : ℤ) ≤ r.2.2 then
      let np := pf.turtle.front.nearest_point (if 0 ≤ r.2.2 then treeGet pf.tree r.2.2.toNat else segDefault)
      let ob := obstacle_seg pf.tree pf.spacing pf.turtle np.2
      match pyget pf.tree.geoms ob.1 with
      | none => none
      | some seg2 =>
        let dmin := seg2.minimal_dist c.seg
        if dmin < 2 * pf.spacing then
          let p2 := seg2.p - ob.2
          let t2 := pf.turtle.front.t (mkSeg p2 seg2.v)
          some { c with dir := Dir.LEFT, seg := seg2, nxt := ob.1, n := ob.2, t := t2, hit := true }
        else some c
    else some c
  else some c

/-- The escalating obstacle checks of the forward step, in source order. -/
def resolveChecks (pf : PF) (c : FwdCtx) : Option FwdCtx :=
  match checkA pf c with
  | none => none
  | some c =>
    match checkB pf c with
    | none => none
    | some c =>
      let c := checkC pf (pReassign c pf.nB)
      match checkD1 pf c with
      | none => none
      | some c => checkD2 pf c

/-- Source lines 813-842: commit the forward step.  With the resolved `t`
below half a spacing the pass is not drawn; instead the cap manoeuvre runs:
rotate onto the direction of the most recently inserted segment, turn right,
advance half a spacing, emit the point and insert the segment, turn right
again, re-seek the wall with a left-probe intersection, and report `False`.
Otherwise move by `t` spacings, rotate onto the resolved normal, emit and
insert, turn to the resolved side and report `True`. -/
def forwardFinish (pf0 : PF) (c : FwdCtx) : Option (PF × Bool) :=
  let pf := { pf0 with last := c.nxt }
  if c.t < 1 / 2 then
    match pyget pf.tree.geoms (-1) with
    | none => none
    | some lastSeg =>
      let t1 := (pf.turtle.rotate (pf.spacing • normalized lastSeg.v)).turn_right
      let t2 := t1.move (((1 : ℚ) / 2) • t1.v)
      match lastCoord pf.coords with
      | none => none
      | some q0 =>
        let q1 := t2.p
        let pf2 := (PFinsert { pf with turtle := t2, coords := pf.coords ++ [q1] } q0 q1).1
        let t3 := pf2.turtle.turn_right
        let pf3 := { pf2 with turtle := t3 }
        let rr := PFintersect pf3.tree pf3.spacing t3.left
        some ({ pf3 with last := rr.2.2 }, false)
  else
    let t1 := (pf.turtle.move (c.t • c.v)).rotate c.n
    match lastCoord pf.coords with
    | none => none
    | some q0 =>
      let q1 := t1.p
      let pf2 := (PFinsert { pf with turtle := t1, coords := pf.coords ++ [q1] } q0 q1).1
      let t3 := match c.dir with
        | Dir.LEFT => pf2.turtle.turn_left
        | Dir.RIGHT => pf2.turtle.turn_right
      some ({ pf2 with turtle := t3 }, true)

/-- `PathFinder.forward`: one forward step.  The iteration counter is bumped
first; past the cap the step reports `False` immediately. -/
def forward (pf0 : PF) : Option (PF × Bool) :=
  let pf1 := { pf0 with iter := pf0.iter + 1 }
  if (pf1.iter : ℚ) > pf1.max_iter then some (pf1, false)
  else
    let pf := followWall pf1
    match fwdResolve pf with
    | none => none
    | some none => some (pf, false)
    | some (some c0) =>
      match resolveChecks pf c0 with
      | none => none
      | some c => forwardFinish pf c

/-- Source lines 968-981: commit a backward step — follow `nxt`, move the
turtle by `t` front vectors, rotate onto the normal, emit the point and
insert the segment, turn to the resolved side, and report the `backward`
flag. -/
def bwdCommit (pf : PF) (nxt : ℤ) (t : ℚ) (n : V2) (dir : Dir) (bwd : Bool) :
    Option (PF × Bool) :=
  let pf1 := { pf with last := nxt }
  let t1 := (pf1.turtle.move (t • pf1.turtle.v)).rotate n
  match lastCoord pf1.coords with
  | none => none
  | some q0 =>
    let q1 := t1.p
    let pf2 := (PFinsert { pf1 with turtle := t1, coords := pf1.coords ++ [q1] } q0 q1).1
    let t3 := match dir with
      | Dir.LEFT => pf2.turtle.turn_left
      | Dir.RIGHT => pf2.turtle.turn_right
    some ({ pf2 with turtle := t3 }, bwd)

/-- Outcome of the decision part of a backward step: give up (the
`abs(t) < 0.5` stop: clear `run`, return `False`, no commit), or commit a
move with the resolved target, also carrying whether `run` was cleared on the
way (the no-predecessor end condition) and the `backward` flag to report. -/
inductive BwdRes
  | giveup
  | commit (nxt : ℤ) (t : ℚ) (n : V2) (dir : Dir) (runFalse bwd : Bool)
deriving DecidableEq, Repr

/-- The decision part of `PathFinder.backward` (source lines 847-967): the
quarter/half-spacing wall following, the hit-along re-aim, the `it or True`
front-clearance check with the side-probe re-aim, the `abs(t) < 0.5` stop
and the no-predecessor (`next == -1`) end condition.  Reads the state only;
`none` models a Python index error. -/
def bwdResolve (pf : PF) : Option BwdRes :=
  let v := pf.turtle.v
  match pyget pf.tree.geoms pf.last with
  | none => none
  | some wseg =>
    let fp := pf.turtle.front.farest_point wseg
    let t0 := fp.1
    let p0 := fp.2
    let nxt0 := wall_seg pf.tree pf.last p0
    if nxt0 = -1 then
      let n := (PFnormal pf.spacing pf.turtle wseg).1
      some (BwdRes.commit nxt0 t0 n Dir.RIGHT true true)
    else
      match pyget pf.tree.geoms nxt0 with
      | none => none
      | some seg1 =>
        let sseg := mkSeg p0 v
        let p1 := if normSq (p0 - seg1.p) < epsSq then seg1.p + seg1.v else seg1.p
        let d := (sseg.distance_pt p1).1
        let ds : Dir × ℚ := if d * pf.turtle.up > 0 then (Dir.LEFT, 1) else (Dir.RIGHT, -1)
        let n1 := (PFnormal pf.spacing pf.turtle seg1).1
        let probe := bwdWallProbe (pf.nB : ℤ) nxt0 seg1 ds.2 n1
        let t1 := pf.turtle.front.t probe
        let along := mkSeg pf.turtle.p (t1 • v)
        let rA := PFintersect pf.tree pf.spacing along
        if rA.1 then
          match pyget pf.tree.geoms rA.2.2 with
          | none => none
          | some seg2 =>
            let n2 := (PFnormal pf.spacing pf.turtle seg2).1
            let p2 := if rA.2.2 < (pf.nB : ℤ) then seg2.p - ((1 : ℚ) / 4) • n2
              else seg2.p - ((1 : ℚ) / 2) • n2
            let t2 := pf.turtle.front.t (mkSeg p2 seg2.v)
            some (BwdRes.commit rA.2.2 t2 n2 Dir.RIGHT false true)
        else
          let pPt := pf.turtle.p + t1 • v
          let rF := PFintersect pf.tree pf.spacing (mkSeg pPt (((3 : ℚ) / 2) • v))
          if rF.1 = true ∨ true = true then
            let dirSeg := match ds.1 with
              | Dir.LEFT => pf.turtle.left
              | Dir.RIGHT => pf.turtle.right
            let rS := PFintersect pf.tree pf.spacing (mkSeg pPt (((3 : ℚ) / 4) • dirSeg.v))
            if rS.1 then
              match pyget pf.tree.geoms rS.2.2 with
              | none => none
              | some seg3 =>
                let np := pf.turtle.front.nearest_point seg3
                let ob := obstacle_seg pf.tree pf.spacing pf.turtle np.2
                match pyget pf.tree.geoms ob.1 with
                | none => none
                | some nseg =>
                  let crossSeg := mkSeg pf.turtle.p ((2 * ratLen seg3.v) • -ob.2)
                  let ot := nseg.t crossSeg
                  let side2 : ℚ := if 0 < ot ∧ ot < 1 then -1 else 1
                  let p3 := if ob.1 < (pf.nB : ℤ) then np.2 - (side2 * (1 / 4)) • ob.2
                    else np.2 - (side2 * (1 / 2)) • ob.2
                  let t3 := pf.turtle.front.t (mkSeg p3 nseg.v)
                  if |t3| < 1 / 2 then some BwdRes.giveup
                  else some (BwdRes.commit ob.1 t3 (-ob.2) ds.1 false true)
            else
              if |t1| < 1 / 2 then some BwdRes.giveup
              else some (BwdRes.commit nxt0 t1 n1 ds.1 false true)
          else
            some (BwdRes.commit nxt0 t1 n1 ds.1 false false)

/-- `PathFinder.backward`: one backward (retreat) step, source lines 844-981.
Mirrors the forward wall following with quarter/half clearance margins.  When
the far wall point has no other segment (`next == -1`) the run flag is
cleared and the step still commits.  Otherwise a hit along the probed stretch
re-aims at the hit; failing that, the front-clearance check (whose condition
is `it or True`, hence always taken) probes to the resolved side, possibly
re-aims, and gives up (`run = False`, return `False`) when the resulting
advance magnitude is below half a spacing; the `backward = False` resumption
branch sits in the dead `else` of `it or True`. -/
def backward (pf0 : PF) : Option (PF × Bool) :=
  let pf := { pf0 with iter := pf0.iter + 1 }
  match bwdResolve pf with
  | none => none
  | some BwdRes.giveup => some ({ pf with run := false }, false)
  | some (BwdRes.commit nxt t n dir rf b) =>
    bwdCommit (if rf then { pf with run := false } else pf) nxt t n dir b

/-- Source lines 598-604: after a step, a failed result flips the direction
flag; past the iteration cap `next` reports `False`; otherwise it reports the
`run` flag. -/
def nextPost (s : PF) (res : Bool) : PF × Bool :=
  let s1 := if res = false then { s with is_forward := ! s.is_forward } else s
  if (s1.iter : ℚ) > s1.max_iter then (s1, false) else (s1, s1.run)

/-- `PathFinder.next`: dispatch one forward or backward step (backward only
when permitted; otherwise report `False` at once). -/
def nextStep (pf : PF) : Option (PF × Bool) :=
  if pf.is_forward then (forward pf).map fun r => nextPost r.1 r.2
  else if pf.allow_backward then (backward pf).map fun r => nextPost r.1 r.2
  else some (pf, false)

/-- The driver loop of `FloorGenerator.floor_heating`
(`run = True; while run: run = pf.next()`), with explicit fuel (`none`
propagates a Python error from a step). -/
def runLoop (pf : PF) : ℕ → Option PF
  | 0 => some pf
  | fuel + 1 =>
    match nextStep pf with
    | none => none
    | some r => if r.2 then runLoop r.1 fuel else some r.1

/-- Modelled from the spec: the run status.  The spec's
`stopped-by-iteration-cap` is a stop forced by the cap while the engine
itself had not finished (`run` still set); `completed` is the `DONE`
transition (`run` cleared). -/
def stoppedByCap (s : PF) : Prop := s.run = true ∧ (s.iter : ℚ) > s.max_iter

instance (s : PF) : Decidable (stoppedByCap s) := by
  unfold stoppedByCap
  infer_instance

/-- Wellformedness of the index contents: every stored segment's recorded
insertion index is below the current segment count (boundary segments carry
`-1`; a path segment's index is its position). -/
def treeIdxOK (t : Tree) : Prop := ∀ sg ∈ t.geoms, sg.idx < (t.ngeoms : ℤ)

/-- Modelled from the spec: the 4x4 square boundary of the test scenarios,
as the external boundary builder would index it (the four edges in chain
order; `width = height = 4`). -/
def squareTree : Tree :=
  ⟨[mkSeg ⟨0, 0⟩ ⟨4, 0⟩, mkSeg ⟨4, 0⟩ ⟨0, 4⟩, mkSeg ⟨4, 4⟩ ⟨-4, 0⟩, mkSeg ⟨0, 4⟩ ⟨0, -4⟩], 4, 4⟩

/-- Modelled from the spec: the iteration-cap scenario — the 4x4 square with
spacing `0.3`, clockwise, backward allowed; the engine is started at the
spec's initial point (half a spacing inside the starting edge at the start
location) with the spacing-sized edge direction, and the caller then
overrides `max_iter` with `1` (the boundary feeding and start-point
derivation live in the excluded generator code). -/
def c6state : Option PF :=
  (mkPathFinder squareTree (3 / 10) true true).map fun pf =>
    { pfStart pf ⟨3 / 20, 3 / 20⟩ ⟨3 / 10, 0⟩ with max_iter := 1 }

/-- A concrete mid-run state on the square boundary (iteration counter
already past the cap) used by the step-level witnesses. -/
def pfDemo : PF :=
  { tree := squareTree
    spacing := 3 / 10
    nB := 4
    last := 0
    turtle := ⟨⟨3 / 20, 3 / 20⟩, ⟨3 / 10, 0⟩, true⟩
    coords := [⟨3 / 20, 3 / 20⟩]
    run := true
    allow_backward := true
    is_forward := true
    iter := 5
    max_iter := 1 }

/-- A cramped backward-mode state: the turtle sits less than half a spacing
from the probe line, so the backward step gives up
(the `abs(t) < 0.5` stop).  The right wall is the most recently indexed
segment. -/
def c9pf : PF :=
  { tree := ⟨[mkSeg ⟨4, 4⟩ ⟨-4, 0⟩, mkSeg ⟨0, 4⟩ ⟨0, -4⟩, mkSeg ⟨0, 0⟩ ⟨4, 0⟩,
      mkSeg ⟨4, 0⟩ ⟨0, 4⟩], 4, 4⟩
    spacing := 3 / 10
    nB := 4
    last := 2
    turtle := ⟨⟨79 / 20, 3 / 20⟩, ⟨3 / 10, 0⟩, true⟩
    coords := [⟨3 / 20, 3 / 20⟩]
    run := true
    allow_backward := true
    is_forward := false
    iter := 3
    max_iter := 100 }

/-- A forward-mode state close to the right wall: the resolved advance
parameter is `1/3 < 0.5`, so the forward step runs the cap manoeuvre. -/
def c4pf : PF :=
  { tree := squareTree
    spacing := 3 / 10
    nB := 4
    last := 0
    turtle := ⟨⟨15 / 4, 3 / 20⟩, ⟨3 / 10, 0⟩, true⟩
    coords := [⟨3 / 20, 3 / 20⟩]
    run := true
    allow_backward := true
    is_forward := true
    iter := 2
    max_iter := 100 }

/-- The cap manoeuvre exactly as the spec words it (forward step, rule 5):
rotate the turtle onto the direction of the last inserted segment (scaled to
the spacing), turn right, advance half a spacing, emit that point and insert
the segment from the previous polyline point, turn right again, and re-seek
the wall segment with a left-probe intersection; the step reports `False`.
Stated over the step's inputs; used as the comparison target for the
source's `t < 0.5` branch. -/
def capManeuverSpec (tree : Tree) (spacing : ℚ) (turtle : Turtle) (coords : List V2)
    (lastSeg : Seg) (q0 : V2) : Bool × List V2 × List Seg × Turtle × ℤ :=
  let t1 := (turtle.rotate (spacing • normalized lastSeg.v)).turn_right
  let t2 := t1.move (((1 : ℚ) / 2) • t1.v)
  let capPt := t2.p
  let t3 := t2.turn_right
  let newSeg : Seg := ⟨q0, capPt - q0, (tree.ngeoms : ℤ)⟩
  let tree2 : Tree := ⟨tree.geoms ++ [newSeg], tree.width, tree.height⟩
  (false, coords ++ [capPt], tree2.geoms, t3, (PFintersect tree2 spacing t3.left).2.2)

/-- The context resolved by the base phase of the forward step at `c4pf`. -/
def c4c0 : FwdCtx :=
  ⟨⟨3 / 10, 0⟩, ⟨⟨4, 0⟩, ⟨0, 4⟩, -1⟩, 1, Dir.LEFT, -1, ⟨3 / 10, 0⟩, 1 / 3, ⟨4, 0⟩,
    ⟨77 / 20, 0⟩, false⟩

/-- The same context after the escalating checks (the forward probe hits the
same constraining segment, so only the hit flag changes). -/
def c4c : FwdCtx :=
  ⟨⟨3 / 10, 0⟩, ⟨⟨4, 0⟩, ⟨0, 4⟩, -1⟩, 1, Dir.LEFT, -1, ⟨3 / 10, 0⟩, 1 / 3, ⟨4, 0⟩,
    ⟨77 / 20, 0⟩, true⟩

def c7A : Seg := mkSeg ⟨0, 0⟩ ⟨1, 0⟩

def c7B : Seg := mkSeg ⟨0, 1⟩ ⟨0, -3⟩

/-- A two-segment index for the query witnesses (the probe hits segment 0;
segment 1 is the most recently inserted one). -/
def c10tree : Tree := ⟨[mkSeg ⟨0, 0⟩ ⟨0, 2⟩, mkSeg ⟨5, 5⟩ ⟨1, 0⟩], 6, 6⟩

def c10probe : Seg := mkSeg ⟨-1, 1⟩ ⟨2, 0⟩

@[simp] theorem V2.add_x (a b : V2) : (a + b).x = a.x + b.x := rfl
@[simp] theorem V2.add_y (a b : V2) : (a + b).y = a.y + b.y := rfl
@[simp] theorem V2.sub_x (a b : V2) : (a - b).x = a.x - b.x := rfl
@[simp] theorem V2.sub_y (a b : V2) : (a - b).y = a.y - b.y := rfl
@[simp] theorem V2.neg_x (a : V2) : (-a).x = -a.x := rfl
@[simp] theorem V2.neg_y (a : V2) : (-a).y = -a.y := rfl
@[simp] theorem V2.smul_x (c : ℚ) (a : V2) : (c • a).x = c * a.x := rfl
@[simp] theorem V2.smul_y (c : ℚ) (a : V2) : (c • a).y = c * a.y := rfl

theorem normSq_nonneg (a : V2) : 0 ≤ normSq a := by
  have hx := mul_self_nonneg a.x
  have hy := mul_self_nonneg a.y
  unfold normSq; linarith

theorem normSq_eq_zero_iff (a : V2) : normSq a = 0 ↔ a = ⟨0, 0⟩ := by
  constructor
  · intro h
    have hx := mul_self_nonneg a.x
    have hy := mul_self_nonneg a.y
    have hx0 : a.x * a.x = 0 := by unfold normSq at h; linarith
    have hy0 : a.y * a.y = 0 := by unfold normSq at h; linarith
    ext
    · exact mul_self_eq_zero.mp hx0
    · exact mul_self_eq_zero.mp hy0
  · intro h; rw [h]; with_unfolding_all decide

theorem isqrtGo_le (n : ℕ) : ∀ m, isqrtGo n m * isqrtGo n m ≤ n := by
  intro m
  induction m with
  | zero => simp [isqrtGo]
  | succ k ih =>
    unfold isqrtGo
    split
    · assumption
    · exact ih

theorem le_isqrtGo (n : ℕ) : ∀ m k, k < m → k * k ≤ n → k ≤ isqrtGo n m := by
  intro m
  induction m with
  | zero => intro k hk; omega
  | succ j ih =>
    intro k hk hsq
    unfold isqrtGo
    split
    · rename_i hj
      omega
    · rename_i hj
      have : k ≠ j := fun he => hj (he ▸ hsq)
      exact ih k (by omega) hsq

theorem isqrt_eq_of_sq (k : ℕ) : isqrt (k * k) = k := by
  have h1 := isqrtGo_le (k * k) (k * k + 1)
  have h2 := le_isqrtGo (k * k) (k * k + 1) k (by nlinarith) (le_refl _)
  have h3 : isqrtGo (k * k) (k * k + 1) ≤ k := by nlinarith [isqrtGo_le (k * k) (k * k + 1)]
  unfold isqrt
  omega

theorem isqrt_eq_zero_iff (n : ℕ) : isqrt n = 0 ↔ n = 0 := by
  constructor
  · intro h
    by_contra hn
    have h1 : 1 ≤ n := Nat.pos_of_ne_zero hn
    have := le_isqrtGo n (n + 1) 1 (by omega) (by omega)
    unfold isqrt at h
    omega
  · intro h
    subst h
    decide

theorem ratLen_eq_zero_iff (v : V2) : ratLen v = 0 ↔ v = ⟨0, 0⟩ := by
  unfold ratLen ratSqrt
  constructor
  · intro h
    have hden : (0:ℚ) < (isqrt (normSq v).den : ℚ) := by
      have hd := (normSq v).den_pos
      have := le_isqrtGo (normSq v).den ((normSq v).den + 1) 1 (by omega) (by omega)
      have h1 : 0 < isqrt (normSq v).den := by unfold isqrt; omega
      exact_mod_cast h1
    have hnum : (isqrt (normSq v).num.toNat : ℚ) = 0 := by
      by_contra hne
      exact hne (by field_simp at h; exact_mod_cast h)
    have h0 : isqrt (normSq v).num.toNat = 0 := by exact_mod_cast hnum
    have hlt : (normSq v).num.toNat = 0 := (isqrt_eq_zero_iff _).mp h0
    have hnn : 0 ≤ (normSq v).num := Rat.num_nonneg.mpr (normSq_nonneg v)
    have hz : (normSq v).num = 0 := by omega
    have hq : normSq v = 0 := by rwa [Rat.num_eq_zero] at hz
    exact (normSq_eq_zero_iff v).mp hq
  · intro h
    subst h
    with_unfolding_all decide

/-- C6: with `max_iter = 1` on the 4x4 square the loop stops by the
iteration cap after emitting exactly the starting point and one stepped
point; the result is already stable at three loop iterations. -/
theorem c6_cap_two_points :
    ((c6state.bind fun s => runLoop s 10).map fun s =>
        (s.coords, decide (stoppedByCap s))) =
      some ([⟨3 / 20, 3 / 20⟩, ⟨77 / 20, 3 / 20⟩], true) ∧
    (c6state.bind fun s => runLoop s 3) = (c6state.bind fun s => runLoop s 10) := by
  constructor <;> with_unfolding_all decide

/-- C5: the core does not validate the spacing.  `spacing = 0` crashes the
constructor with an unguarded division by zero (modelled `none`) instead of
returning a descriptive error, and `spacing = -0.3` is accepted outright and
routed (the first `next` call runs a forward step and succeeds); only the UI
property layer (`min = 0.01` on the `spacing` property) keeps such values
out. -/
theorem c5_spacing_not_validated :
    mkPathFinder squareTree 0 true true = none ∧
    ((mkPathFinder squareTree (-(3 / 10)) true true).map fun pf => pf.max_iter) =
      some (1600 / 9) ∧
    ((mkPathFinder squareTree (-(3 / 10)) true true).map fun pf =>
        (nextStep (pfStart pf ⟨3 / 20, 3 / 20⟩ ⟨-(3 / 10), 0⟩)).isSome) = some true := by
  refine ⟨?_, ?_, ?_⟩ <;> with_unfolding_all decide

/-- C3: `intersect_ext` reports no hit exactly when the determinant (the
cross product of the two direction vectors) is zero, and otherwise returns
parameters `u`, `v` and the point with `A.p + u*A.v = B.p + v*B.v`; no
tolerance enters the test. -/
theorem c3_intersect_ext (A B : Seg) :
    ((A.intersect_ext B).1 = false ↔ cross2 A.v B.v = 0) ∧
    (cross2 A.v B.v ≠ 0 →
      A.p + (A.intersect_ext B).2.2.1 • A.v = B.p + (A.intersect_ext B).2.2.2 • B.v ∧
      (A.intersect_ext B).2.1 = A.p + (A.intersect_ext B).2.2.1 • A.v) := by
  have hd : dot A.v ⟨B.v.y, -B.v.x⟩ = cross2 A.v B.v := by
    unfold dot cross2
    ring
  by_cases hz : cross2 A.v B.v = 0
  · refine ⟨?_, fun h => absurd hz h⟩
    simp [Seg.intersect_ext, hd, hz]
  · refine ⟨by simp [Seg.intersect_ext, hd, hz], fun _ => ⟨?_, ?_⟩⟩
    · simp only [Seg.intersect_ext, hd, if_neg hz]
      unfold cross2 at hz
      ext
      · simp only [V2.add_x, V2.smul_x, V2.sub_x, V2.sub_y, dot, cross2]
        field_simp
        ring
      · simp only [V2.add_y, V2.smul_y, V2.sub_x, V2.sub_y, dot, cross2]
        field_simp
        ring
    · simp [Seg.intersect_ext, hd, hz]

theorem c3_intersect_ext_witness :
    cross2 (mkSeg ⟨0, 0⟩ ⟨2, 0⟩).v (mkSeg ⟨1, -1⟩ ⟨0, 3⟩).v ≠ 0 ∧
    (mkSeg ⟨0, 0⟩ ⟨2, 0⟩).p +
        ((mkSeg ⟨0, 0⟩ ⟨2, 0⟩).intersect_ext (mkSeg ⟨1, -1⟩ ⟨0, 3⟩)).2.2.1 •
          (mkSeg ⟨0, 0⟩ ⟨2, 0⟩).v =
      (mkSeg ⟨1, -1⟩ ⟨0, 3⟩).p +
        ((mkSeg ⟨0, 0⟩ ⟨2, 0⟩).intersect_ext (mkSeg ⟨1, -1⟩ ⟨0, 3⟩)).2.2.2 •
          (mkSeg ⟨1, -1⟩ ⟨0, 3⟩).v := by
  have hz : cross2 (mkSeg ⟨0, 0⟩ ⟨2, 0⟩).v (mkSeg ⟨1, -1⟩ ⟨0, 3⟩).v ≠ 0 := by
    with_unfolding_all decide
  exact ⟨hz, ((c3_intersect_ext (mkSeg ⟨0, 0⟩ ⟨2, 0⟩) (mkSeg ⟨1, -1⟩ ⟨0, 3⟩)).2 hz).1⟩

/-- C7 counterexample: with `B`'s endpoints on opposite sides of `A`'s line,
`minimal_dist` returns `-2` while the minimum of the (unsigned) perpendicular
line distances of the endpoints is `1`. -/
theorem c7_minimal_dist_counterexample :
    c7A.minimal_dist c7B ≠
      min (linePerpDist c7A c7B.p) (linePerpDist c7A (c7B.p + c7B.v)) ∧
    c7A.minimal_dist c7B = -2 ∧
    min (linePerpDist c7A c7B.p) (linePerpDist c7A (c7B.p + c7B.v)) = 1 := by
  refine ⟨?_, ?_, ?_⟩ <;> with_unfolding_all decide

/-- C7 amended: `minimal_dist` is the minimum of the *signed* perpendicular
distances (the spec's `signed_distance`) from `A`'s line to `B`'s two
endpoints. -/
theorem c7_minimal_dist_amended (A B : Seg) :
    A.minimal_dist B = min (lineSignedDist A B.p) (lineSignedDist A (B.p + B.v)) := by
  unfold Seg.minimal_dist Seg.distance_pt lineSignedDist
  by_cases h : ratLen A.v = 0
  · have hv := (ratLen_eq_zero_iff A.v).mp h
    have hx : A.v.x = 0 := by rw [hv]
    have hy : A.v.y = 0 := by rw [hv]
    simp [h, cross2, hx, hy]
  · simp only [if_neg h]
    have h0 : cross2 A.v (B.p - A.p) = A.v.x * (B.p - A.p).y - A.v.y * (B.p - A.p).x := rfl
    have h1 : cross2 A.v (B.p + B.v - A.p) =
        A.v.x * (B.p + B.v - A.p).y - A.v.y * (B.p + B.v - A.p).x := rfl
    rw [h0, h1, min_def]
    split_ifs with h2 h3 h3 <;> linarith

/-- C1: the clearance rule offsets the probe line (which stays parallel to
the constraining segment) by half a spacing for an original boundary edge
(`next < n_boundary`) and a full spacing for an already drawn path edge; the
backward step narrows these to a quarter and a half spacing.  Offsets are
measured with the squared norm, `n` being the spacing-sized normal and
`side` the turn sign. -/
theorem c1_clearance_offsets (nB nxt : ℤ) (seg : Seg) (side : ℚ) (n : V2) (spacing : ℚ)
    (hside : side = 1 ∨ side = -1) (hn : normSq n = spacing ^ 2) :
    ((fwdWallProbe nB nxt seg side n).v = seg.v ∧
      (bwdWallProbe nB nxt seg side n).v = seg.v) ∧
    (nxt < nB →
      normSq ((fwdWallProbe nB nxt seg side n).p - seg.p) = (spacing / 2) ^ 2 ∧
      normSq ((bwdWallProbe nB nxt seg side n).p - seg.p) = (spacing / 4) ^ 2) ∧
    (¬ nxt < nB →
      normSq ((fwdWallProbe nB nxt seg side n).p - seg.p) = spacing ^ 2 ∧
      normSq ((bwdWallProbe nB nxt seg side n).p - seg.p) = (spacing / 2) ^ 2) := by
  have hs2 : side * side = 1 := by
    rcases hside with h | h <;> rw [h] <;> norm_num
  unfold fwdWallProbe bwdWallProbe mkSeg normSq at *
  refine ⟨⟨?_, ?_⟩, fun h => ⟨?_, ?_⟩, fun h => ⟨?_, ?_⟩⟩ <;>
    split_ifs <;>
    simp only [V2.sub_x, V2.sub_y, V2.add_x, V2.add_y, V2.smul_x, V2.smul_y] <;>
    first
      | rfl
      | linear_combination (side * side / 4) * hn + (spacing ^ 2 / 4) * hs2
      | linear_combination (side * side / 16) * hn + (spacing ^ 2 / 16) * hs2
      | linear_combination (side * side) * hn + (spacing ^ 2) * hs2

theorem listFoldlInvariant {A B : Type} (I : A → Prop) (f : A → B → A)
    (hstep : ∀ a b, I a → I (f a b)) :
    ∀ (l : List B) (a : A), I a → I (l.foldl f a) := by
  intro l
  induction l with
  | nil => intro a h; exact h
  | cons b l ih => intro a h; exact ih (f a b) (hstep a b h)

/-- C10: a hit reported by `PathFinder.intersect` never names the most
recently inserted segment (`ngeoms - 1` is skipped in the scan). -/
theorem c10_intersect_skips_newest (tree : Tree) (spacing : ℚ) (s : Seg)
    (h : (PFintersect tree spacing s).1 = true) :
    (PFintersect tree spacing s).2.2 ≠ (tree.ngeoms : ℤ) - 1 := by
  have H : ((PFintersect tree spacing s).1 = false → (PFintersect tree spacing s).2.1 = 10 ^ 32) ∧
      ((PFintersect tree spacing s).1 = true →
        (PFintersect tree spacing s).2.2 ≠ (tree.ngeoms : ℤ) - 1) := by
    unfold PFintersect
    refine listFoldlInvariant
      (fun acc : Bool × ℚ × ℤ =>
        (acc.1 = false → acc.2.1 = 10 ^ 32) ∧
        (acc.1 = true → acc.2.2 ≠ (tree.ngeoms : ℤ) - 1))
      _ ?_ _ _ ⟨fun _ => rfl, fun hc => by simp at hc⟩
    intro a i ha
    dsimp only
    split_ifs with h1 h2 h3
    · exact ⟨fun hc => by simp at hc, fun _ => h1⟩
    · refine ⟨fun hc => by simp at hc, fun _ => ?_⟩
      rcases ha with ⟨hf, ht⟩
      cases hA : a.1 with
      | true => exact ht hA
      | false =>
        exfalso
        have := hf hA
        rcases h2 with ⟨-, hu, -⟩
        rw [this] at h3
        have : (10001 / 10000 : ℚ) < 10 ^ 32 := by norm_num
        exact h3 (lt_of_le_of_lt hu this)
    · exact ha
    · exact ha
  exact H.2 h

theorem c10_intersect_skips_newest_witness :
    (PFintersect c10tree (3 / 10) c10probe).1 = true ∧
    (PFintersect c10tree (3 / 10) c10probe).2.2 ≠ (c10tree.ngeoms : ℤ) - 1 := by
  have h : (PFintersect c10tree (3 / 10) c10probe).1 = true := by
    with_unfolding_all decide
  exact ⟨h, c10_intersect_skips_newest c10tree (3 / 10) c10probe h⟩

theorem c1_clearance_offsets_witness :
    normSq ((fwdWallProbe 1 0 (mkSeg ⟨0, 0⟩ ⟨5, 0⟩) 1 ⟨0, 3⟩).p -
        (mkSeg ⟨0, 0⟩ ⟨5, 0⟩).p) = ((3 : ℚ) / 2) ^ 2 ∧
    normSq ((bwdWallProbe 1 0 (mkSeg ⟨0, 0⟩ ⟨5, 0⟩) 1 ⟨0, 3⟩).p -
        (mkSeg ⟨0, 0⟩ ⟨5, 0⟩).p) = ((3 : ℚ) / 4) ^ 2 ∧
    normSq ((fwdWallProbe 1 5 (mkSeg ⟨0, 0⟩ ⟨5, 0⟩) 1 ⟨0, 3⟩).p -
        (mkSeg ⟨0, 0⟩ ⟨5, 0⟩).p) = (3 : ℚ) ^ 2 := by
  have h := c1_clearance_offsets 1 0 (mkSeg ⟨0, 0⟩ ⟨5, 0⟩) 1 ⟨0, 3⟩ 3 (Or.inl rfl)
    (by with_unfolding_all decide)
  have h2 := c1_clearance_offsets 1 5 (mkSeg ⟨0, 0⟩ ⟨5, 0⟩) 1 ⟨0, 3⟩ 3 (Or.inl rfl)
    (by with_unfolding_all decide)
  exact ⟨(h.2.1 (by decide)).1, (h.2.1 (by decide)).2, (h2.2.2 (by decide)).1⟩

theorem PFinsert_spec (x : PF) (p0 p1 : V2) :
    (PFinsert x p0 p1).2 = (x.tree.ngeoms : ℤ) ∧
    (PFinsert x p0 p1).1.tree.geoms =
      x.tree.geoms ++ [⟨p0, p1 - p0, (x.tree.ngeoms : ℤ)⟩] ∧
    (PFinsert x p0 p1).1.iter = x.iter ∧
    (PFinsert x p0 p1).1.max_iter = x.max_iter ∧
    (PFinsert x p0 p1).1.coords = x.coords ∧
    (PFinsert x p0 p1).1.run = x.run ∧
    (PFinsert x p0 p1).1.allow_backward = x.allow_backward ∧
    (PFinsert x p0 p1).1.is_forward = x.is_forward ∧
    (PFinsert x p0 p1).1.spacing = x.spacing ∧
    (PFinsert x p0 p1).1.nB = x.nB ∧
    (PFinsert x p0 p1).1.last = x.last ∧
    (PFinsert x p0 p1).1.turtle = x.turtle :=
  ⟨rfl, rfl, rfl, rfl, rfl, rfl, rfl, rfl, rfl, rfl, rfl, rfl⟩

theorem followWall_fields (x : PF) :
    (followWall x).iter = x.iter ∧ (followWall x).max_iter = x.max_iter ∧
    (followWall x).tree = x.tree ∧ (followWall x).coords = x.coords ∧
    (followWall x).allow_backward = x.allow_backward ∧
    (followWall x).is_forward = x.is_forward ∧ (followWall x).spacing = x.spacing ∧
    (followWall x).nB = x.nB ∧ (followWall x).run = x.run ∧
    (followWall x).turtle = x.turtle := by
  unfold followWall
  split
  · exact ⟨rfl, rfl, rfl, rfl, rfl, rfl, rfl, rfl, rfl, rfl⟩
  · exact ⟨rfl, rfl, rfl, rfl, rfl, rfl, rfl, rfl, rfl, rfl⟩

theorem forwardFinish_frame (x : PF) (c : FwdCtx) (s : PF) (r : Bool)
    (h : forwardFinish x c = some (s, r)) :
    s.iter = x.iter ∧ s.max_iter = x.max_iter ∧ s.allow_backward = x.allow_backward ∧
    s.is_forward = x.is_forward ∧ s.run = x.run ∧ s.spacing = x.spacing ∧ s.nB = x.nB ∧
    x.tree.geoms <+: s.tree.geoms ∧ x.coords <+: s.coords ∧
    s.coords.length = x.coords.length + 1 := by
  simp only [forwardFinish] at h
  split at h
  · split at h
    · exact absurd h (by simp)
    · split at h
      · exact absurd h (by simp)
      · simp only [Option.some.injEq, Prod.mk.injEq] at h
        obtain ⟨hs, hr⟩ := h
        subst hs
        simp [PFinsert, List.prefix_append]
  · split at h
    · exact absurd h (by simp)
    · simp only [Option.some.injEq, Prod.mk.injEq] at h
      obtain ⟨hs, hr⟩ := h
      subst hs
      simp [PFinsert, List.prefix_append]

theorem forward_frame (x s : PF) (r : Bool) (h : forward x = some (s, r)) :
    s.iter = x.iter + 1 ∧ s.max_iter = x.max_iter ∧ s.allow_backward = x.allow_backward ∧
    s.is_forward = x.is_forward ∧ s.spacing = x.spacing ∧ s.nB = x.nB ∧
    x.tree.geoms <+: s.tree.geoms ∧ x.coords <+: s.coords ∧
    s.coords.length ≤ x.coords.length + 1 := by
  simp only [forward] at h
  split at h
  · simp only [Option.some.injEq, Prod.mk.injEq] at h
    obtain ⟨hs, hr⟩ := h
    subst hs
    simp
  · obtain ⟨hw1, hw2, hw3, hw4, hw5, hw6, hw7, hw8, hw9, hw10⟩ :=
      followWall_fields { x with iter := x.iter + 1 }
    split at h
    · exact absurd h (by simp)
    · simp only [Option.some.injEq, Prod.mk.injEq] at h
      obtain ⟨hs, hr⟩ := h
      subst hs
      rw [hw1, hw2, hw3, hw4, hw5, hw6, hw7, hw8]
      simp
    · split at h
      · exact absurd h (by simp)
      · have hf := forwardFinish_frame _ _ _ _ h
        rw [hw1, hw2, hw3, hw4, hw5, hw6, hw7, hw8] at hf
        simp only at hf
        exact ⟨hf.1, hf.2.1, hf.2.2.1, hf.2.2.2.1, hf.2.2.2.2.2.1, hf.2.2.2.2.2.2.1,
          hf.2.2.2.2.2.2.2.1, hf.2.2.2.2.2.2.2.2.1, le_of_eq hf.2.2.2.2.2.2.2.2.2⟩

theorem bwdCommit_frame (y : PF) (nxt : ℤ) (t : ℚ) (n : V2) (dir : Dir) (b : Bool)
    (s : PF) (r : Bool) (h : bwdCommit y nxt t n dir b = some (s, r)) :
    s.iter = y.iter ∧ s.max_iter = y.max_iter ∧ s.allow_backward = y.allow_backward ∧
    s.is_forward = y.is_forward ∧ s.run = y.run ∧ s.spacing = y.spacing ∧ s.nB = y.nB ∧
    y.tree.geoms <+: s.tree.geoms ∧ y.coords <+: s.coords ∧
    s.coords.length = y.coords.length + 1 ∧ r = b := by
  simp only [bwdCommit] at h
  split at h
  · exact absurd h (by simp)
  · simp only [Option.some.injEq, Prod.mk.injEq] at h
    obtain ⟨hs, hr⟩ := h
    subst hs
    refine ⟨rfl, rfl, rfl, rfl, rfl, rfl, rfl, ?_, ?_, ?_, hr.symm⟩
    · simp [PFinsert, List.prefix_append]
    · simp [PFinsert, List.prefix_append]
    · simp [PFinsert]

theorem backward_frame (x s : PF) (r : Bool) (h : backward x = some (s, r)) :
    s.iter = x.iter + 1 ∧ s.max_iter = x.max_iter ∧ s.allow_backward = x.allow_backward ∧
    s.is_forward = x.is_forward ∧ s.spacing = x.spacing ∧ s.nB = x.nB ∧
    x.tree.geoms <+: s.tree.geoms ∧ x.coords <+: s.coords ∧
    s.coords.length ≤ x.coords.length + 1 := by
  simp only [backward] at h
  split at h
  · exact absurd h (by simp)
  · simp only [Option.some.injEq, Prod.mk.injEq] at h
    obtain ⟨hs, hr⟩ := h
    subst hs
    exact ⟨rfl, rfl, rfl, rfl, rfl, rfl, List.prefix_refl _, List.prefix_refl _, Nat.le_succ _⟩
  · have hc := bwdCommit_frame _ _ _ _ _ _ _ _ h
    rename_i nxt t n dir rf b heq
    by_cases hrf : rf = true
    · rw [hrf] at hc
      simp only [if_pos rfl] at hc
      exact ⟨hc.1, hc.2.1, hc.2.2.1, hc.2.2.2.1, hc.2.2.2.2.2.1, hc.2.2.2.2.2.2.1,
        hc.2.2.2.2.2.2.2.1, hc.2.2.2.2.2.2.2.2.1, le_of_eq hc.2.2.2.2.2.2.2.2.2.1⟩
    · rw [Bool.not_eq_true] at hrf
      rw [hrf] at hc
      simp only [Bool.false_eq_true, if_false] at hc
      exact ⟨hc.1, hc.2.1, hc.2.2.1, hc.2.2.2.1, hc.2.2.2.2.2.1, hc.2.2.2.2.2.2.1,
        hc.2.2.2.2.2.2.2.1, hc.2.2.2.2.2.2.2.2.1, le_of_eq hc.2.2.2.2.2.2.2.2.2.1⟩

theorem treeIdxOK_insert (x : PF) (p0 p1 : V2) (h : treeIdxOK x.tree) :
    treeIdxOK (PFinsert x p0 p1).1.tree := by
  unfold treeIdxOK PFinsert Tree.ngeoms at *
  intro sg hm
  simp only [List.mem_append, List.mem_singleton] at hm
  simp only [List.length_append, List.length_singleton]
  rcases hm with hm | hm
  · have := h sg hm
    push_cast
    omega
  · subst hm
    push_cast
    omega

theorem forwardFinish_idx (x : PF) (c : FwdCtx) (s : PF) (r : Bool)
    (h : forwardFinish x c = some (s, r)) (hw : treeIdxOK x.tree) : treeIdxOK s.tree := by
  simp only [forwardFinish] at h
  split at h
  · split at h
    · exact absurd h (by simp)
    · split at h
      · exact absurd h (by simp)
      · simp only [Option.some.injEq, Prod.mk.injEq] at h
        obtain ⟨hs, hr⟩ := h
        subst hs
        exact treeIdxOK_insert _ _ _ hw
  · split at h
    · exact absurd h (by simp)
    · simp only [Option.some.injEq, Prod.mk.injEq] at h
      obtain ⟨hs, hr⟩ := h
      subst hs
      exact treeIdxOK_insert _ _ _ hw

theorem forward_idx (x s : PF) (r : Bool) (h : forward x = some (s, r))
    (hw : treeIdxOK x.tree) : treeIdxOK s.tree := by
  simp only [forward] at h
  split at h
  · simp only [Option.some.injEq, Prod.mk.injEq] at h
    obtain ⟨hs, hr⟩ := h
    subst hs
    exact hw
  · have ht : (followWall { x with iter := x.iter + 1 }).tree = x.tree :=
      (followWall_fields _).2.2.1
    split at h
    · exact absurd h (by simp)
    · simp only [Option.some.injEq, Prod.mk.injEq] at h
      obtain ⟨hs, hr⟩ := h
      subst hs
      rw [ht]
      exact hw
    · split at h
      · exact absurd h (by simp)
      · refine forwardFinish_idx _ _ _ _ h ?_
        rw [ht]
        exact hw

theorem bwdCommit_idx (y : PF) (nxt : ℤ) (t : ℚ) (n : V2) (dir : Dir) (b : Bool)
    (s : PF) (r : Bool) (h : bwdCommit y nxt t n dir b = some (s, r))
    (hw : treeIdxOK y.tree) : treeIdxOK s.tree := by
  simp only [bwdCommit] at h
  split at h
  · exact absurd h (by simp)
  · simp only [Option.some.injEq, Prod.mk.injEq] at h
    obtain ⟨hs, hr⟩ := h
    subst hs
    exact treeIdxOK_insert _ _ _ hw

theorem backward_idx (x s : PF) (r : Bool) (h : backward x = some (s, r))
    (hw : treeIdxOK x.tree) : treeIdxOK s.tree := by
  simp only [backward] at h
  split at h
  · exact absurd h (by simp)
  · simp only [Option.some.injEq, Prod.mk.injEq] at h
    obtain ⟨hs, hr⟩ := h
    subst hs
    exact hw
  · exact bwdCommit_idx _ _ _ _ _ _ _ _ h (by split <;> exact hw)

theorem nextPost_spec (s : PF) (res : Bool) :
    (nextPost s res).1.iter = s.iter ∧ (nextPost s res).1.max_iter = s.max_iter ∧
    (nextPost s res).1.coords = s.coords ∧ (nextPost s res).1.tree = s.tree ∧
    (nextPost s res).1.allow_backward = s.allow_backward ∧
    ((nextPost s res).2 = true → ((nextPost s res).1.iter : ℚ) ≤ (nextPost s res).1.max_iter) ∧
    ((s.iter : ℚ) > s.max_iter → (nextPost s res).2 = false) := by
  cases res with
  | false =>
    simp only [nextPost, if_true]
    split
    · exact ⟨rfl, rfl, rfl, rfl, rfl, fun hc => absurd hc (by simp), fun _ => rfl⟩
    · rename_i hcap
      exact ⟨rfl, rfl, rfl, rfl, rfl, fun _ => le_of_not_lt hcap, fun hgt => absurd hgt hcap⟩
  | true =>
    simp only [nextPost, Bool.true_eq_false, if_false]
    split
    · exact ⟨rfl, rfl, rfl, rfl, rfl, fun hc => absurd hc (by simp), fun _ => rfl⟩
    · rename_i hcap
      exact ⟨rfl, rfl, rfl, rfl, rfl, fun _ => le_of_not_lt hcap, fun hgt => absurd hgt hcap⟩

theorem nextStep_frame (x s : PF) (r : Bool) (h : nextStep x = some (s, r)) :
    x.iter ≤ s.iter ∧ s.iter ≤ x.iter + 1 ∧ s.max_iter = x.max_iter ∧
    s.allow_backward = x.allow_backward ∧
    x.tree.geoms <+: s.tree.geoms ∧ x.coords <+: s.coords ∧
    s.coords.length + x.iter ≤ x.coords.length + s.iter ∧
    (r = true → (s.iter : ℚ) ≤ s.max_iter) ∧
    ((x.iter : ℚ) > x.max_iter → r = false) ∧
    (treeIdxOK x.tree → treeIdxOK s.tree) := by
  unfold nextStep at h
  split at h
  · cases hf : forward x with
    | none => rw [hf] at h; exact absurd h (by simp)
    | some fr =>
      rw [hf] at h
      simp only [Option.map_some', Option.some.injEq] at h
      have hfr := forward_frame x fr.1 fr.2 (by rw [hf])
      have hidx := forward_idx x fr.1 fr.2 (by rw [hf])
      have hnp := nextPost_spec fr.1 fr.2
      rw [h] at hnp
      obtain ⟨h1, h2, h3, h4, h5, h6, h7⟩ := hnp
      have e1 : s.coords.length = fr.1.coords.length := by rw [h3]
      have e3 : s.iter = x.iter + 1 := by rw [h1, hfr.1]
      refine ⟨by omega, by omega, by rw [h2, hfr.2.1], by rw [h5, hfr.2.2.1], ?_, ?_,
        ?_, h6, ?_, ?_⟩
      · rw [h4]
        exact hfr.2.2.2.2.2.2.1
      · rw [h3]
        exact hfr.2.2.2.2.2.2.2.1
      · have e2 := hfr.2.2.2.2.2.2.2.2
        omega
      · intro hgt
        refine h7 ?_
        rw [hfr.1, hfr.2.1]
        push_cast
        linarith
      · intro hw
        rw [h4]
        exact hidx hw
  · split at h
    · cases hf : backward x with
      | none => rw [hf] at h; exact absurd h (by simp)
      | some fr =>
        rw [hf] at h
        simp only [Option.map_some', Option.some.injEq] at h
        have hfr := backward_frame x fr.1 fr.2 (by rw [hf])
        have hidx := backward_idx x fr.1 fr.2 (by rw [hf])
        have hnp := nextPost_spec fr.1 fr.2
        rw [h] at hnp
        obtain ⟨h1, h2, h3, h4, h5, h6, h7⟩ := hnp
        have e1 : s.coords.length = fr.1.coords.length := by rw [h3]
        have e3 : s.iter = x.iter + 1 := by rw [h1, hfr.1]
        refine ⟨by omega, by omega, by rw [h2, hfr.2.1], by rw [h5, hfr.2.2.1], ?_, ?_,
          ?_, h6, ?_, ?_⟩
        · rw [h4]
          exact hfr.2.2.2.2.2.2.1
        · rw [h3]
          exact hfr.2.2.2.2.2.2.2.1
        · have e2 := hfr.2.2.2.2.2.2.2.2
          omega
        · intro hgt
          refine h7 ?_
          rw [hfr.1, hfr.2.1]
          push_cast
          linarith
        · intro hw
          rw [h4]
          exact hidx hw
    · simp only [Option.some.injEq, Prod.mk.injEq] at h
      obtain ⟨hs, hr⟩ := h
      subst hs
      refine ⟨le_refl _, Nat.le_succ _, rfl, rfl, List.prefix_refl _, List.prefix_refl _,
        by omega, ?_, fun _ => hr.symm, fun hw => hw⟩
      intro hc
      rw [← hr] at hc
      exact absurd hc (by simp)

/-- C2: the constructor sets `max_iter = width * height / spacing ^ 2` (with
iteration counter zero), unless the driver overrides the field afterwards;
whenever the counter exceeds the cap, `next` reports `False` (so the driver
loop stops); and along any driver loop the final counter stays within one of
the cap (or of the initial counter) while the polyline grows by at most one
point per counted iteration. -/
theorem c2_iteration_cap :
    (∀ (tree : Tree) (spacing : ℚ) (ab cw : Bool) (pf : PF),
        mkPathFinder tree spacing ab cw = some pf →
        pf.max_iter = tree.width * tree.height / spacing ^ 2 ∧ pf.iter = 0 ∧
        pf.coords = []) ∧
    (∀ (pf s : PF) (r : Bool), (pf.iter : ℚ) > pf.max_iter →
        nextStep pf = some (s, r) → r = false) ∧
    (∀ (pf : PF) (fuel : ℕ) (s : PF), runLoop pf fuel = some s →
        (s.iter : ℚ) ≤ max ((pf.iter : ℚ) + 1) (pf.max_iter + 1) ∧
        s.coords.length + pf.iter ≤ pf.coords.length + s.iter) := by
  refine ⟨?_, ?_, ?_⟩
  · intro tree spacing ab cw pf h
    unfold mkPathFinder at h
    split at h
    · exact absurd h (by simp)
    · simp only [Option.some.injEq] at h
      subst h
      exact ⟨rfl, rfl, rfl⟩
  · intro pf s r hgt h
    exact (nextStep_frame pf s r h).2.2.2.2.2.2.2.2.1 hgt
  · intro pf fuel
    induction fuel generalizing pf with
    | zero =>
      intro s h
      simp only [runLoop, Option.some.injEq] at h
      subst h
      constructor
      · refine le_max_of_le_left ?_
        linarith
      · omega
    | succ n ih =>
      intro s h
      simp only [runLoop] at h
      cases hn : nextStep pf with
      | none => rw [hn] at h; exact absurd h (by simp)
      | some pr =>
        rw [hn] at h
        dsimp only at h
        have hfr := nextStep_frame pf pr.1 pr.2 (by rw [hn])
        by_cases hr : pr.2 = true
        · rw [if_pos hr] at h
          have hrec := ih pr.1 s h
          have hcap : (pr.1.iter : ℚ) ≤ pr.1.max_iter := hfr.2.2.2.2.2.2.2.1 hr
          have hmax : pr.1.max_iter = pf.max_iter := hfr.2.2.1
          constructor
          · have h1 := hrec.1
            have h2 : max ((pr.1.iter : ℚ) + 1) (pr.1.max_iter + 1) ≤ pf.max_iter + 1 :=
              max_le (by rw [← hmax]; linarith) (by rw [hmax])
            exact le_trans h1 (le_trans h2 (le_max_right _ _))
          · have h2 := hrec.2
            have h3 := hfr.2.2.2.2.2.2.1
            omega
        · rw [if_neg hr] at h
          simp only [Option.some.injEq] at h
          subst h
          constructor
          · refine le_max_of_le_left ?_
            have h2 : pr.1.iter ≤ pf.iter + 1 := hfr.2.1
            have h4 : ((pr.1.iter : ℕ) : ℚ) ≤ ((pf.iter + 1 : ℕ) : ℚ) := Nat.cast_le.mpr h2
            push_cast at h4
            linarith
          · have h3 := hfr.2.2.2.2.2.2.1
            omega

theorem c2_iteration_cap_witness :
    ((nextStep pfDemo).map Prod.snd) = some false ∧
    ((runLoop pfDemo 7).map fun s =>
        decide ((s.iter : ℚ) ≤ max ((pfDemo.iter : ℚ) + 1) (pfDemo.max_iter + 1)) &&
        decide (s.coords.length + pfDemo.iter ≤ pfDemo.coords.length + s.iter)) =
      some true ∧
    ((mkPathFinder squareTree (3 / 10) true true).map fun pf => pf.max_iter) =
      some (squareTree.width * squareTree.height / (3 / 10) ^ 2) := by
  refine ⟨?_, ?_, ?_⟩
  · cases hn : nextStep pfDemo with
    | none =>
      have hs : (nextStep pfDemo).isSome = true := by with_unfolding_all decide
      rw [hn] at hs
      exact absurd hs (by simp)
    | some pr =>
      have hr := c2_iteration_cap.2.1 pfDemo pr.1 pr.2 (by norm_num [pfDemo]) (by rw [hn])
      simp only [Option.map_some', Option.some.injEq]
      exact hr
  · cases hn : runLoop pfDemo 7 with
    | none =>
      have hs : (runLoop pfDemo 7).isSome = true := by with_unfolding_all decide
      rw [hn] at hs
      exact absurd hs (by simp)
    | some s =>
      have hb := c2_iteration_cap.2.2 pfDemo 7 s hn
      simp only [Option.map_some', Option.some.injEq]
      rw [decide_eq_true hb.1, decide_eq_true hb.2]
      rfl
  · cases hm : mkPathFinder squareTree (3 / 10) true true with
    | none =>
      have hs : (mkPathFinder squareTree (3 / 10) true true).isSome = true := by
        with_unfolding_all decide
      rw [hm] at hs
      exact absurd hs (by simp)
    | some pf =>
      have h := (c2_iteration_cap.1 squareTree (3 / 10) true true pf hm).1
      simp only [Option.map_some', Option.some.injEq]
      exact h

/-- C8: the spatial index is append-only and insertion indices grow
strictly: `insert` hands out exactly the current segment count as the new
index (and appends), so under the index wellformedness invariant (which
every step preserves) the new index strictly exceeds the index of every
segment already stored; along any driver loop the stored segment list of the
start state stays a prefix of the final one. -/
theorem c8_monotonic_index :
    (∀ (pf : PF) (p0 p1 : V2),
        (PFinsert pf p0 p1).2 = (pf.tree.ngeoms : ℤ) ∧
        (PFinsert pf p0 p1).1.tree.geoms =
          pf.tree.geoms ++ [⟨p0, p1 - p0, (pf.tree.ngeoms : ℤ)⟩] ∧
        (treeIdxOK pf.tree → ∀ sg ∈ pf.tree.geoms, sg.idx < (PFinsert pf p0 p1).2) ∧
        (treeIdxOK pf.tree → treeIdxOK (PFinsert pf p0 p1).1.tree)) ∧
    (∀ (pf : PF) (fuel : ℕ) (s : PF), runLoop pf fuel = some s →
        pf.tree.geoms <+: s.tree.geoms ∧ (treeIdxOK pf.tree → treeIdxOK s.tree)) := by
  constructor
  · intro pf p0 p1
    refine ⟨rfl, rfl, ?_, treeIdxOK_insert pf p0 p1⟩
    intro hw sg hm
    exact hw sg hm
  · intro pf fuel
    induction fuel generalizing pf with
    | zero =>
      intro s h
      simp only [runLoop, Option.some.injEq] at h
      subst h
      exact ⟨List.prefix_refl _, fun hw => hw⟩
    | succ n ih =>
      intro s h
      simp only [runLoop] at h
      cases hn : nextStep pf with
      | none => rw [hn] at h; exact absurd h (by simp)
      | some pr =>
        rw [hn] at h
        dsimp only at h
        have hfr := nextStep_frame pf pr.1 pr.2 (by rw [hn])
        by_cases hr : pr.2 = true
        · rw [if_pos hr] at h
          have hrec := ih pr.1 s h
          exact ⟨(hfr.2.2.2.2.1).trans hrec.1,
            fun hw => hrec.2 (hfr.2.2.2.2.2.2.2.2.2 hw)⟩
        · rw [if_neg hr] at h
          simp only [Option.some.injEq] at h
          subst h
          exact ⟨hfr.2.2.2.2.1, hfr.2.2.2.2.2.2.2.2.2⟩

theorem c8_monotonic_index_witness :
    (PFinsert pfDemo ⟨1, 1⟩ ⟨2, 2⟩).2 = (4 : ℤ) ∧
    ((runLoop pfDemo 7).map fun s => s.tree.geoms.take pfDemo.tree.geoms.length) =
      some pfDemo.tree.geoms := by
  constructor
  · have h := (c8_monotonic_index.1 pfDemo ⟨1, 1⟩ ⟨2, 2⟩).1
    rw [h]
    with_unfolding_all decide
  · cases hn : runLoop pfDemo 7 with
    | none =>
      have hs : (runLoop pfDemo 7).isSome = true := by with_unfolding_all decide
      rw [hn] at hs
      exact absurd hs (by simp)
    | some s =>
      have h := (c8_monotonic_index.2 pfDemo 7 s hn).1
      simp only [Option.map_some', Option.some.injEq]
      exact (List.prefix_iff_eq_take.mp h).symm

theorem bwdResolve_no_resume (pf : PF) (nxt : ℤ) (t : ℚ) (n : V2) (dir : Dir)
    (rf b : Bool) (h : bwdResolve pf = some (BwdRes.commit nxt t n dir rf b)) :
    b = true := by
  simp only [bwdResolve, eq_self_iff_true, or_true, if_true] at h
  repeat' split at h
  all_goals
    first
      | (simp only [Option.some.injEq, BwdRes.commit.injEq] at h
         exact h.2.2.2.2.2.symm)
      | simp at h

/-- C9: the front-clearance condition of the backward step is `it or True`,
so the resumption branch (which would report `False` after committing a
move, handing control back to forward stepping) is unreachable: whenever
`backward` reports `False` it is the `abs(t) < 0.5` stop, which clears the
`run` flag and leaves the polyline, the index and the turtle untouched. -/
theorem c9_backward_only_gives_up (x s : PF) (h : backward x = some (s, false)) :
    s.coords = x.coords ∧ s.tree = x.tree ∧ s.run = false ∧ s.turtle = x.turtle := by
  simp only [backward] at h
  split at h
  · exact absurd h (by simp)
  · simp only [Option.some.injEq, Prod.mk.injEq] at h
    obtain ⟨hs, -⟩ := h
    subst hs
    exact ⟨rfl, rfl, rfl, rfl⟩
  · rename_i nxt t n dir rf b heq
    have hb : b = true := bwdResolve_no_resume _ _ _ _ _ _ _ heq
    have hc := bwdCommit_frame _ _ _ _ _ _ _ _ h
    rw [hb] at hc
    exact absurd hc.2.2.2.2.2.2.2.2.2.2 (by simp)

theorem c9_backward_only_gives_up_witness :
    ((backward c9pf).map fun o => (o.1.coords, o.1.run, o.2)) =
      some (c9pf.coords, false, false) := by
  cases hb : backward c9pf with
  | none =>
    have hs : (backward c9pf).isSome = true := by with_unfolding_all decide
    rw [hb] at hs
    exact absurd hs (by simp)
  | some o =>
    obtain ⟨s1, r1⟩ := o
    have hr : r1 = false := by
      have h2 : (backward c9pf).map Prod.snd = some false := by with_unfolding_all decide
      rw [hb] at h2
      simpa using h2
    subst hr
    have hc := c9_backward_only_gives_up c9pf s1 hb
    simp only [Option.map_some', Option.some.injEq]
    rw [hc.1, hc.2.2.1]

/-- C4: whenever the fully resolved advance parameter of a forward step is
below half a spacing, the pass is not drawn; the engine instead performs the
cap manoeuvre described by `capManeuverSpec` (rotate onto the last inserted
segment, turn right, advance half a spacing, emit and insert, turn right
again, re-seek the wall with a left probe) and reports `False`, which is
what flips the engine to backward mode. -/
theorem c4_short_pass_cap (pf0 : PF) (c0 c : FwdCtx) (lastSeg : Seg) (q0 : V2)
    (h1 : ¬ ((pf0.iter : ℚ) + 1 > pf0.max_iter))
    (h2 : fwdResolve (followWall { pf0 with iter := pf0.iter + 1 }) = some (some c0))
    (h3 : resolveChecks (followWall { pf0 with iter := pf0.iter + 1 }) c0 = some c)
    (h4 : c.t < 1 / 2)
    (h5 : pyget pf0.tree.geoms (-1) = some lastSeg)
    (h6 : lastCoord pf0.coords = some q0) :
    (forward pf0).map (fun r => (r.2, r.1.coords, r.1.tree.geoms, r.1.turtle, r.1.last)) =
      some (capManeuverSpec pf0.tree pf0.spacing pf0.turtle pf0.coords lastSeg q0) := by
  obtain ⟨f1, f2, f3, f4, f5, f6, f7, f8, f9, f10⟩ :=
    followWall_fields { pf0 with iter := pf0.iter + 1 }
  simp only [forward]
  split
  · rename_i hcap
    exact absurd (by simpa using hcap) h1
  · simp only [h2, h3]
    simp only [forwardFinish, PFinsert]
    rw [if_pos h4]
    simp only [f3, f4, f7, f10]
    simp only [h5, h6]
    simp only [Option.map_some', capManeuverSpec, Tree.ngeoms]

theorem c4_short_pass_cap_witness :
    ((forward c4pf).map fun r => (r.2, r.1.coords, r.1.tree.geoms, r.1.turtle, r.1.last)) =
      some (capManeuverSpec c4pf.tree c4pf.spacing c4pf.turtle c4pf.coords
        (mkSeg ⟨0, 4⟩ ⟨0, -4⟩) ⟨3 / 20, 3 / 20⟩) :=
  c4_short_pass_cap c4pf c4c0 c4c (mkSeg ⟨0, 4⟩ ⟨0, -4⟩) ⟨3 / 20, 3 / 20⟩
    (by with_unfolding_all decide)
    (by with_unfolding_all decide)
    (by with_unfolding_all decide)
    (by with_unfolding_all decide)
    (by with_unfolding_all decide)
    (by with_unfolding_all decide)

end FH
